import Mathlib
set_option maxRecDepth 10000
set_option allowUnsafeReducibility true
attribute [semireducible] Rat.add Rat.mul Rat.sub Rat.div Rat.inv Rat.neg Rat.blt Rat.ofScientific

/-!
Verification of the Lagrange-interpolating-polynomial library.

This file shallowly embeds the core of the repository into Lean 4 and settles
the frozen claims about it.  The program stores a polynomial as a dense vector
of `double` coefficients in increasing order of the exponent; here a polynomial
is a `List ℚ` (exact rationals stand in for the finite `double` values, and
all arithmetic is exact).  The embedded operations are translated from
`src/lib/main.cc` (the current library implementation) and from the free
function `interpolate` of `src/Polynomial.cpp` (an older standalone variant of
the same program); where the two variants are observably identical a single
definition is shared.  `std::string` results are modelled as Lean `String`s,
C++ `int long long` values as `ℤ`, and thrown `std::invalid_argument`
exceptions as `Except` errors.
-/

/-- A polynomial, stored as its coefficient vector: index `i` holds the
coefficient of the variable raised to the power `i`. -/
abbrev PolyQ := List ℚ

/-- The trailing-zero removal loop of `Polynomial::sanitise`
(src/lib/main.cc lines 168-171): `while(!this->empty() && this->back() == 0)
this->pop_back();`, rendered as structural recursion that drops the longest
all-zero suffix. -/
def trimZeros : PolyQ → PolyQ
  | [] => []
  | c :: rest =>
    match trimZeros rest with
    | [] => if c = 0 then [] else [c]
    | r => c :: r

/-- `Polynomial::sanitise` with the near-zero threshold as a parameter:
replace every coefficient of absolute value at most `eps` with zero, then
delete trailing zeros (src/lib/main.cc lines 159-172; identical code at
src/Polynomial.cpp lines 115-131). -/
def sanitiseWith (eps : ℚ) (l : PolyQ) : PolyQ :=
  trimZeros (l.map (fun c => if |c| ≤ eps then 0 else c))

/-- `Polynomial::sanitise` as in the source, with the hard-coded threshold
`1e-10`. -/
def sanitise (l : PolyQ) : PolyQ :=
  sanitiseWith (1 / 10 ^ 10) l

/-- `Polynomial::operator()` / `Polynomial::evaluate`: Horner evaluation,
iterating over the coefficients from the highest power down
(`y = y * x + *it`, src/lib/main.cc lines 362-370; src/Polynomial.cpp
lines 223-232). -/
def evalPoly (l : PolyQ) (x : ℚ) : ℚ :=
  l.foldr (fun c acc => acc * x + c) 0

/-- `Polynomial::degree`: one less than the length of the coefficient vector
(src/Polynomial.cpp lines 243-246); `-1` is the sentinel degree of the zero
polynomial, so the result lives in `ℤ`. -/
def degreeP (l : PolyQ) : ℤ :=
  (l.length : ℤ) - 1

/-- The element-wise part of polynomial addition, `operator+=`
(src/lib/main.cc lines 210-225): add entry-wise over the common length, then
append the remaining tail of the longer operand.  (The older variant's
`operator+` at src/Polynomial.cpp lines 295-317 builds the same vector with
explicit index loops.) -/
def polyAddRaw : PolyQ → PolyQ → PolyQ
  | [], q => q
  | p, [] => p
  | a :: p, b :: q => (a + b) :: polyAddRaw p q

/-- Polynomial addition `operator+`: the raw element-wise sum followed by
`sanitise` (src/lib/main.cc lines 224, 235-240). -/
def polyAdd (p q : PolyQ) : PolyQ :=
  sanitise (polyAddRaw p q)

/-- The element-wise part of polynomial subtraction, `operator-=`
(src/lib/main.cc lines 248-263). -/
def polySubRaw : PolyQ → PolyQ → PolyQ
  | [], q => q.map (fun b => -b)
  | p, [] => p
  | a :: p, b :: q => (a - b) :: polySubRaw p q

/-- Polynomial subtraction `operator-` (src/lib/main.cc lines 262, 273-278). -/
def polySub (p q : PolyQ) : PolyQ :=
  sanitise (polySubRaw p q)

/-- One output coefficient of the convolution inner loop of `operator*`
(src/lib/main.cc lines 312-319): starting from `0`, for each `k` from `0`
to `n`, add `p[k] * q[n - k]` whenever both indices are in range. -/
def convEntry (p q : PolyQ) (n : ℕ) : ℚ :=
  (List.range (n + 1)).foldl
    (fun acc k =>
      if k < p.length ∧ n - k < q.length then acc + p.getD k 0 * q.getD (n - k) 0 else acc)
    0

/-- The convolution loop of polynomial multiplication `operator*`
(src/lib/main.cc lines 299-320), before the final `sanitise`: if either
operand is empty the result is `{}`; otherwise output index `n` runs from `0`
to `p.size() + q.size() - 2` and receives `convEntry p q n`. -/
def polyMulRaw (p q : PolyQ) : PolyQ :=
  if p.isEmpty ∨ q.isEmpty then []
  else (List.range (p.length + q.length - 1)).map (fun n => convEntry p q n)

/-- Polynomial multiplication `operator*`: the convolution followed by
`sanitise` (src/lib/main.cc lines 299-323). -/
def polyMul (p q : PolyQ) : PolyQ :=
  sanitise (polyMulRaw p q)

/-- The element-wise part of scalar division `operator/=`
(src/lib/main.cc lines 331-338): divide every coefficient by `d`.  The
source contains no zero test for `d`. -/
def polyDivRaw (p : PolyQ) (d : ℚ) : PolyQ :=
  p.map (fun c => c / d)

/-- Scalar division `operator/`: divide every coefficient, then `sanitise`
(src/lib/main.cc lines 331-353; src/Polynomial.cpp lines 440-451). -/
def polyDiv (p : PolyQ) (d : ℚ) : PolyQ :=
  sanitise (polyDivRaw p d)

/-- Scalar multiplication `operator*(Polynomial, double)`
(src/Polynomial.cpp lines 385-396): scale every coefficient, then `sanitise`
(applied by the `Polynomial` constructor on the result vector). -/
def polyScale (p : PolyQ) (f : ℚ) : PolyQ :=
  sanitise (p.map (fun c => c * f))

instance {ε α : Type} [DecidableEq ε] [DecidableEq α] : DecidableEq (Except ε α) := fun x y =>
  match x, y with
  | .ok a, .ok b => if h : a = b then isTrue (by rw [h]) else isFalse (by simp [h])
  | .error a, .error b => if h : a = b then isTrue (by rw [h]) else isFalse (by simp [h])
  | .ok _, .error _ => isFalse (by simp)
  | .error _, .ok _ => isFalse (by simp)

/-- One step of the inner loop of the Lagrange construction in `interpolate`
(src/Polynomial.cpp lines 581-589): skip `k = j`; otherwise multiply the
running polynomial by the degree-1 factor `{-x[k], 1}` and divide the
product by the scalar `-x[k] + x[j]`.  The factor literal, the product and
the quotient each pass through the sanitiser `san`, exactly where the
source's `Polynomial` constructor calls `sanitise`. -/
def lagrangeStep (san : PolyQ → PolyQ) (x : List ℚ) (j : ℕ) (acc : PolyQ) (k : ℕ) : PolyQ :=
  if k = j then acc
  else san (polyDivRaw (san (polyMulRaw acc (san [-(x.getD k 0), 1]))) (-(x.getD k 0) + x.getD j 0))

/-- The Lagrange accumulation loops of `interpolate` (src/Polynomial.cpp
lines 577-591): for each `j < m` build the local polynomial seeded with
`{y[j]}` via `lagrangeStep`, and add it into the running result (which
starts as the default-constructed zero polynomial).  `m` is the number of
points used, and the sanitiser is a parameter so that the source behaviour
(`san = sanitise`) can be compared with the ideal computation
(`san = trimZeros`, which never flattens a small nonzero coefficient). -/
def interpBody (san : PolyQ → PolyQ) (x y : List ℚ) (m : ℕ) : PolyQ :=
  (List.range m).foldl
    (fun result j =>
      san (polyAddRaw result ((List.range m).foldl (lagrangeStep san x j) (san [y.getD j 0]))))
    []

/-- One step of the inner loop of the interpolating constructor
(src/lib/main.cc lines 143-149): `local *= Polynomial({-xcoords[j], 1})
/ (-xcoords[j] + xcoords[i])`.  Because `/` binds tighter than `*=`, the
degree-1 factor is divided by the scalar first, and the running polynomial
is then multiplied by the quotient — the opposite grouping from the older
`interpolate`, with the sanitiser applied at each constructor and compound
assignment as in the source. -/
def lagrangeStepCc (san : PolyQ → PolyQ) (x : List ℚ) (i : ℕ) (acc : PolyQ) (j : ℕ) : PolyQ :=
  if i = j then acc
  else san (polyMulRaw acc
    (san (polyDivRaw (san [-(x.getD j 0), 1]) (-(x.getD j 0) + x.getD i 0))))

/-- The Lagrange accumulation loops of the interpolating constructor
(src/lib/main.cc lines 139-151): as `interpBody`, but with the constructor's
grouping of the multiply and divide (`lagrangeStepCc`). -/
def interpBodyCc (san : PolyQ → PolyQ) (x y : List ℚ) (m : ℕ) : PolyQ :=
  (List.range m).foldl
    (fun result i =>
      san (polyAddRaw result ((List.range m).foldl (lagrangeStepCc san x i) (san [y.getD i 0]))))
    []

/-- The two `std::invalid_argument` conditions thrown by `interpolate`
(src/Polynomial.cpp lines 561-572).  Neither message carries the duplicated
value. -/
inductive InterpErr where
  | insufficientPoints
  | duplicateAbscissa
deriving DecidableEq

/-- The free function `interpolate` (src/Polynomial.cpp lines 559-595):
fail when either input has at most one element; fail when the x-coordinates
are not pairwise distinct (the source compares the size of an `std::set`
built from all of `x` with `x.size()`, which is exactly a no-duplicates test
on the whole of `x`); otherwise run the Lagrange construction on the first
`min(x.size(), y.size())` points.  The display name `"ip"` set on the result
is cosmetic and not modelled. -/
def interpolate (x y : List ℚ) : Except InterpErr PolyQ :=
  if x.length ≤ 1 ∨ y.length ≤ 1 then .error .insufficientPoints
  else if ¬ x.Nodup then .error .duplicateAbscissa
  else .ok (interpBody sanitise x y (min x.length y.length))

/-- The two `std::invalid_argument` conditions thrown by the interpolating
constructor (src/lib/main.cc lines 120-137); the duplicate-abscissa message
names the offending x-coordinate, so the error carries it. -/
inductive PointsErr where
  | insufficientPoints
  | duplicateAbscissa (v : ℚ)
deriving DecidableEq

/-- The duplicate scan of the interpolating constructor
(src/lib/main.cc lines 127-137): walk `xcoords` with a table of counts
(`std::unordered_map`), and report the first coordinate encountered whose
count is already positive — that is, the first element that was seen
before. -/
def findDuplicate : List ℚ → List ℚ → Option ℚ
  | _, [] => none
  | seen, v :: rest => if v ∈ seen then some v else findDuplicate (v :: seen) rest

/-- The interpolating constructor `Polynomial(xcoords, ycoords)`
(src/lib/main.cc lines 120-153): fail with the insufficient-points condition
when `min(xcoords.size(), ycoords.size()) <= 1`; then scan all of `xcoords`
for a duplicate and fail naming it if one exists; otherwise run the Lagrange
construction on the first `min` points and sanitise the final result. -/
def polyFromPoints (xcoords ycoords : List ℚ) : Except PointsErr PolyQ :=
  if min xcoords.length ycoords.length ≤ 1 then .error .insufficientPoints
  else
    match findDuplicate [] xcoords with
    | some v => .error (.duplicateAbscissa v)
    | none =>
      .ok (sanitise (interpBodyCc sanitise xcoords ycoords (min xcoords.length ycoords.length)))

/-- `true` exactly on a duplicate-abscissa failure of `polyFromPoints`. -/
def isDupErr : Except PointsErr PolyQ → Bool
  | .error (.duplicateAbscissa _) => true
  | _ => false

/-- The C++ cast `static_cast<int long long>(r)` applied to a real value:
truncation toward zero, which on `ℚ` is the t-division of the numerator by
the denominator. -/
def ratTrunc (q : ℚ) : ℤ :=
  Int.tdiv q.num q.den

/-- The result-assembly tail shared by both return points of `rationalise`
(src/lib/main.cc lines 405-411 and 452-457): `result = sign +
std::to_string(n); if(d != 1) return result + '/' + std::to_string(d);
return result;`. -/
def render (sign : String) (n d : ℤ) : String :=
  let result := sign ++ toString n
  if d ≠ 1 then result ++ "/" ++ toString d else result

/-- The `while(true)` convergent loop of `rationalise`
(src/lib/main.cc lines 414-435).  C++ integer division and the derived
remainder are `Int.tdiv` / `n - a * d`.  The source loop has no fuel; here
the fuel is an upper bound on the iteration count, sound because `d` strictly
decreases — `rationalise` passes `d.natAbs`, and `cfLoop_never_fails` below
proves exhaustion unreachable.  A `none` result marks reaching the quotient
`a = n / d` with `d = 0`, which in the source would be undefined behaviour;
it too is proved unreachable. -/
def cfLoop (maxd : ℤ) : ℕ → ℤ → ℤ → ℤ → ℤ → ℤ → ℤ → Option (ℤ × ℤ × ℤ × ℤ)
  | 0, _, _, _, _, _, _ => none
  | fuel + 1, n, d, p0, q0, p1, q1 =>
    if d = 0 then none
    else if maxd < q0 + Int.tdiv n d * q1 then some (p0, q0, p1, q1)
    else cfLoop maxd fuel d (n - Int.tdiv n d * d) p1 q1
      (p0 + Int.tdiv n d * p1) (q0 + Int.tdiv n d * q1)

/-- `rationalise` (src/lib/main.cc lines 382-458): approximate a real number
by a rational with denominator at most `maxd`.  The stages follow the source:
return the integer immediately when truncation is exact; split off the sign;
scale by `10^12`, truncate, and reduce by the gcd, returning directly if the
reduced denominator is small enough (omitting a `/1` suffix); otherwise run
the continued-fraction loop and choose between the last convergent
`p1/q1` and the semiconvergent `(p0 + k*p1)/(q0 + k*q1)` by comparing
absolute errors.  The input `double` and the error comparison are modelled
over `ℚ`; the `int long long` values are modelled as `ℤ` (overflow is not
modelled).  `none` marks a division by zero in the loop or at the
semiconvergent step `k = (maxd - q0) / q1` — undefined in the source — and
is proved unreachable for `maxd ≥ 1`. -/
def rationalise (number : ℚ) (maxd : ℤ) : Option String :=
  let numberToInteger := ratTrunc number
  if (numberToInteger : ℚ) = number then some (toString numberToInteger)
  else
    let sign := if number < 0 then "-" else ""
    let numberAbs := |number|
    let d0 : ℤ := 10 ^ 12
    let n0 : ℤ := ratTrunc (numberAbs * (d0 : ℚ))
    let g : ℤ := Int.gcd n0 d0
    let n1 := Int.tdiv n0 g
    let d1 := Int.tdiv d0 g
    if d1 ≤ maxd then some (render sign n1 d1)
    else
      match cfLoop maxd d1.natAbs n1 d1 0 1 1 0 with
      | none => none
      | some (p0, q0, p1, q1) =>
        if q1 = 0 then none
        else
          let k := Int.tdiv (maxd - q0) q1
          let bound1 : ℚ := ((p0 + k * p1 : ℤ) : ℚ) / ((q0 + k * q1 : ℤ) : ℚ)
          let bound2 : ℚ := ((p1 : ℤ) : ℚ) / ((q1 : ℤ) : ℚ)
          if |bound2 - numberAbs| ≤ |bound1 - numberAbs| then some (render sign p1 q1)
          else some (render sign (p0 + k * p1) (q0 + k * q1))

/-- An IEEE-754 `double` as far as scalar division can observe it: a finite
value (exact, as a rational), one of the two infinities, or NaN.  This finer
model is used only to settle what `operator/=` does on division by zero; the
rest of the development identifies doubles with their exact finite values. -/
inductive DD where
  | fin (q : ℚ)
  | inf
  | ninf
  | nan
deriving DecidableEq

/-- IEEE division for the cases `operator/=` can reach: a finite value
divided by (finite) zero yields an infinity of the numerator's sign, or NaN
for `0/0`; division by a nonzero finite value is exact; a finite value
divided by an infinity is zero; the remaining cases yield NaN. -/
def ddDiv : DD → DD → DD
  | .fin a, .fin b =>
    if b = 0 then (if 0 < a then .inf else if a < 0 then .ninf else .nan)
    else .fin (a / b)
  | .inf, .fin b => if b < 0 then .ninf else .inf
  | .ninf, .fin b => if b < 0 then .inf else .ninf
  | .fin _, .inf => .fin 0
  | .fin _, .ninf => .fin 0
  | _, _ => .nan

/-- The comparison `std::abs(coefficient) <= 1e-10` on a `double`: false on
infinities and on NaN (every IEEE comparison with NaN is false). -/
def ddSmall : DD → Bool
  | .fin a => |a| ≤ 1 / 10 ^ 10
  | _ => false

/-- The comparison `coefficient == 0` on a `double`: false on infinities and
on NaN. -/
def ddIsZero : DD → Bool
  | .fin a => a = 0
  | _ => false

/-- The trailing-zero removal loop of `Polynomial::sanitise` over `DD`. -/
def trimZerosDD : List DD → List DD
  | [] => []
  | c :: rest =>
    match trimZerosDD rest with
    | [] => if ddIsZero c then [] else [c]
    | r => c :: r

/-- `Polynomial::sanitise` (src/lib/main.cc lines 159-172) over `DD`. -/
def sanitiseDD (l : List DD) : List DD :=
  trimZerosDD (l.map (fun c => if ddSmall c then .fin 0 else c))

/-- Scalar division `operator/=` (src/lib/main.cc lines 331-338) over `DD`:
divide every coefficient by `d`, then sanitise.  The source performs no test
on `d` and has no failure path: the function always returns a polynomial. -/
def polyDivDD (p : List DD) (d : DD) : List DD :=
  sanitiseDD (p.map (fun c => ddDiv c d))

/-! ### The semantic polynomial represented by a coefficient vector -/

/-- The Mathlib polynomial denoted by a coefficient vector. -/
noncomputable def listToPoly : PolyQ → Polynomial ℚ
  | [] => 0
  | c :: rest => Polynomial.C c + Polynomial.X * listToPoly rest

/-- Canonical form as the spec describes it, except that interior
coefficients that are exactly zero are allowed (they survive sanitising):
the vector does not end in a zero, and every coefficient within the `1e-10`
threshold is exactly zero. -/
def canonicalForm (l : PolyQ) : Prop :=
  l.getLast? ≠ some 0 ∧ ∀ c ∈ l, |c| ≤ 1 / 10 ^ 10 → c = 0

/-- The discrete linear convolution exactly as the spec describes it: "for
each output index n from 0 to len(p)+len(q)-2, sum p[k]*q[n-k] over all k
where both indices are in range".  Written from the spec's words, to be
compared with `polyMulRaw`, which is translated from the code. -/
def convolutionSpec (p q : PolyQ) : PolyQ :=
  (List.range (p.length + q.length - 1)).map (fun n =>
    ∑ k ∈ Finset.range (n + 1),
      if k < p.length ∧ n - k < q.length then p.getD k 0 * q.getD (n - k) 0 else 0)

theorem coeff_listToPoly (l : PolyQ) (i : ℕ) : (listToPoly l).coeff i = l.getD i 0 := by
  induction l generalizing i with
  | nil => simp [listToPoly]
  | cons c rest ih =>
    cases i with
    | zero => simp [listToPoly, Polynomial.mul_coeff_zero]
    | succ i => simp [listToPoly, Polynomial.coeff_X_mul, ih]

theorem eval_listToPoly (l : PolyQ) (t : ℚ) : (listToPoly l).eval t = evalPoly l t := by
  induction l with
  | nil => simp [listToPoly, evalPoly]
  | cons c rest ih =>
    simp only [listToPoly, Polynomial.eval_add, Polynomial.eval_C, Polynomial.eval_mul,
      Polynomial.eval_X, ih, evalPoly, List.foldr_cons]
    ring

theorem foldl_add_eq (f : ℕ → ℚ) (l : List ℕ) :
    ∀ init : ℚ, l.foldl (fun acc k => acc + f k) init = init + (l.map f).sum := by
  induction l with
  | nil => intro init; simp
  | cons k l ih => intro init; simp [ih, add_assoc]

theorem list_range_map_sum (f : ℕ → ℚ) (m : ℕ) :
    ((List.range m).map f).sum = ∑ k ∈ Finset.range m, f k := by
  induction m with
  | zero => simp
  | succ m ih => rw [List.range_succ, Finset.sum_range_succ, List.map_append, List.sum_append, ih]; simp

theorem convEntry_eq_sum (p q : PolyQ) (n : ℕ) :
    convEntry p q n = ∑ k ∈ Finset.range (n + 1), p.getD k 0 * q.getD (n - k) 0 := by
  unfold convEntry
  have h1 : (fun (acc : ℚ) (k : ℕ) =>
      if k < p.length ∧ n - k < q.length then acc + p.getD k 0 * q.getD (n - k) 0 else acc)
      = (fun acc k => acc +
          (if k < p.length ∧ n - k < q.length then p.getD k 0 * q.getD (n - k) 0 else 0)) := by
    funext acc k
    split <;> simp
  rw [h1, foldl_add_eq, list_range_map_sum, zero_add]
  refine Finset.sum_congr rfl (fun k _ => ?_)
  by_cases hk : k < p.length ∧ n - k < q.length
  · simp [hk]
  · rw [if_neg hk]
    rcases not_and_or.mp hk with h | h
    · rw [List.getD_eq_default _ _ (le_of_not_lt h), zero_mul]
    · rw [List.getD_eq_default _ _ (le_of_not_lt h), mul_zero]

theorem getD_map_range (f : ℕ → ℚ) (m n : ℕ) :
    ((List.range m).map f).getD n 0 = if n < m then f n else 0 := by
  by_cases h : n < m
  · rw [if_pos h, List.getD_eq_getElem _ _ (by simpa using h)]
    simp
  · rw [if_neg h, List.getD_eq_default]
    simpa using le_of_not_lt h

theorem listToPoly_polyMulRaw (p q : PolyQ) :
    listToPoly (polyMulRaw p q) = listToPoly p * listToPoly q := by
  by_cases hpq : p.isEmpty ∨ q.isEmpty
  · rcases hpq with h | h
    · rw [polyMulRaw, if_pos (Or.inl h), List.isEmpty_iff.mp h]
      simp [listToPoly]
    · rw [polyMulRaw, if_pos (Or.inr h), List.isEmpty_iff.mp h]
      simp [listToPoly]
  · rw [polyMulRaw, if_neg hpq]
    push_neg at hpq
    obtain ⟨hp, hq⟩ := hpq
    have hp' : 1 ≤ p.length := List.length_pos.mpr (fun h => hp (by simp [h]))
    have hq' : 1 ≤ q.length := List.length_pos.mpr (fun h => hq (by simp [h]))
    apply Polynomial.ext
    intro n
    rw [coeff_listToPoly, Polynomial.coeff_mul, getD_map_range,
      Finset.Nat.sum_antidiagonal_eq_sum_range_succ_mk]
    by_cases hn : n < p.length + q.length - 1
    · rw [if_pos hn, convEntry_eq_sum]
      exact Finset.sum_congr rfl (fun k _ => by rw [coeff_listToPoly, coeff_listToPoly])
    · rw [if_neg hn]
      symm
      apply Finset.sum_eq_zero
      intro k hk
      rw [coeff_listToPoly, coeff_listToPoly]
      rcases lt_or_ge k p.length with h | h
      · rw [List.getD_eq_default q 0 (n := n - k) (by omega), mul_zero]
      · rw [List.getD_eq_default p 0 h, zero_mul]

theorem evalPoly_polyMulRaw (p q : PolyQ) (t : ℚ) :
    evalPoly (polyMulRaw p q) t = evalPoly p t * evalPoly q t := by
  rw [← eval_listToPoly, ← eval_listToPoly, ← eval_listToPoly, listToPoly_polyMulRaw,
    Polynomial.eval_mul]

theorem evalPoly_polyAddRaw (p q : PolyQ) (t : ℚ) :
    evalPoly (polyAddRaw p q) t = evalPoly p t + evalPoly q t := by
  induction p generalizing q with
  | nil => simp [polyAddRaw, evalPoly]
  | cons a p ih =>
    cases q with
    | nil => simp [polyAddRaw, evalPoly]
    | cons b q =>
      simp only [polyAddRaw, evalPoly, List.foldr_cons] at *
      rw [ih]
      ring

theorem evalPoly_polyDivRaw (p : PolyQ) (d t : ℚ) :
    evalPoly (polyDivRaw p d) t = evalPoly p t / d := by
  induction p with
  | nil => simp [polyDivRaw, evalPoly]
  | cons a p ih =>
    simp only [polyDivRaw, evalPoly, List.map_cons, List.foldr_cons] at *
    rw [ih]
    ring

theorem evalPoly_trimZeros (l : PolyQ) (t : ℚ) : evalPoly (trimZeros l) t = evalPoly l t := by
  induction l with
  | nil => rfl
  | cons c rest ih =>
    have hcons : evalPoly (c :: rest) t = evalPoly rest t * t + c := rfl
    rw [trimZeros]
    cases htr : trimZeros rest with
    | nil =>
      have h0 : evalPoly rest t = 0 := by rw [← ih, htr]; rfl
      by_cases hc : c = 0
      · rw [if_pos hc, hcons, h0, hc]
        show (0 : ℚ) = 0 * t + 0
        ring
      · rw [if_neg hc, hcons, h0]
        show (0 : ℚ) * t + c = 0 * t + c
        rfl
    | cons r rs =>
      show evalPoly (c :: r :: rs) t = evalPoly (c :: rest) t
      have h1 : evalPoly (c :: r :: rs) t = evalPoly (r :: rs) t * t + c := rfl
      rw [h1, ← htr, ih, hcons]

theorem evalPoly_sanitiseZero (l : PolyQ) (t : ℚ) :
    evalPoly (sanitiseWith 0 l) t = evalPoly l t := by
  rw [sanitiseWith]
  have hf : (fun c : ℚ => if |c| ≤ (0 : ℚ) then 0 else c) = id := by
    funext c
    by_cases hc : c = 0
    · simp [hc]
    · rw [if_neg (by simpa [abs_nonpos_iff] using hc)]
      rfl
  rw [hf, List.map_id, evalPoly_trimZeros]

/-! ### Canonical form -/

theorem trimZeros_getLast (l : PolyQ) : (trimZeros l).getLast? ≠ some 0 := by
  induction l with
  | nil => simp [trimZeros]
  | cons c rest ih =>
    rw [trimZeros]
    cases htr : trimZeros rest with
    | nil =>
      by_cases hc : c = 0
      · simp [hc]
      · rw [if_neg hc]
        simpa using hc
    | cons r rs =>
      rw [List.getLast?_cons_cons]
      rw [htr] at ih
      exact ih

theorem mem_trimZeros (l : PolyQ) (c : ℚ) (h : c ∈ trimZeros l) : c ∈ l := by
  induction l with
  | nil => simp [trimZeros] at h
  | cons a rest ih =>
    rw [trimZeros] at h
    cases htr : trimZeros rest with
    | nil =>
      rw [htr] at h
      by_cases ha : a = 0
      · simp [ha] at h
      · rw [if_neg ha] at h
        simp at h
        simp [h]
    | cons r rs =>
      rw [htr] at h
      rcases List.mem_cons.mp h with h | h
      · simp [h]
      · exact List.mem_cons_of_mem a (ih (htr ▸ h))

theorem sanitise_canonical (l : PolyQ) : canonicalForm (sanitise l) := by
  constructor
  · exact trimZeros_getLast _
  · intro c hc hsmall
    have hmem := mem_trimZeros _ _ hc
    rcases List.mem_map.mp hmem with ⟨a, _, ha⟩
    by_cases h : |a| ≤ 1 / 10 ^ 10
    · rw [if_pos h] at ha
      exact ha.symm
    · rw [if_neg h] at ha
      exact absurd (ha ▸ hsmall) h

theorem trimZeros_eq_self (l : PolyQ) (c : ℚ) (hl : l.getLast? = some c) (hc : c ≠ 0) :
    trimZeros l = l := by
  induction l with
  | nil => simp at hl
  | cons a rest ih =>
    rw [trimZeros]
    cases rest with
    | nil =>
      simp at hl
      rw [show trimZeros [] = [] from rfl, if_neg (hl ▸ hc)]
    | cons b rs =>
      rw [List.getLast?_cons_cons] at hl
      rw [ih hl]

theorem sanitise_length_of_big_last (l : PolyQ) (c : ℚ) (hl : l.getLast? = some c)
    (hc : ¬ |c| ≤ 1 / 10 ^ 10) : (sanitise l).length = l.length := by
  rw [sanitise, sanitiseWith]
  have hmap : (l.map (fun a => if |a| ≤ 1 / 10 ^ 10 then 0 else a)).getLast? = some c := by
    rw [List.getLast?_map, hl, Option.map_some']
    rw [if_neg hc]
  have hc0 : c ≠ 0 := by
    intro h
    exact hc (by rw [h]; norm_num)
  rw [trimZeros_eq_self _ _ hmap hc0, List.length_map]

theorem convEntry_last (p q : PolyQ) (hp : p ≠ []) (hq : q ≠ []) :
    convEntry p q (p.length + q.length - 2)
      = p.getD (p.length - 1) 0 * q.getD (q.length - 1) 0 := by
  have hp1 : 1 ≤ p.length := List.length_pos.mpr hp
  have hq1 : 1 ≤ q.length := List.length_pos.mpr hq
  rw [convEntry_eq_sum]
  have hmem : p.length - 1 ∈ Finset.range (p.length + q.length - 2 + 1) :=
    Finset.mem_range.mpr (by omega)
  rw [Finset.sum_eq_single_of_mem (p.length - 1) hmem ?_]
  · rw [show p.length + q.length - 2 - (p.length - 1) = q.length - 1 by omega]
  · intro k hk hne
    rcases lt_or_ge k (p.length - 1) with h | h
    · rw [List.getD_eq_default q 0 (n := p.length + q.length - 2 - k) (by omega), mul_zero]
    · rw [List.getD_eq_default p 0 (n := k) (by omega), zero_mul]

theorem polyMulRaw_getLast (p q : PolyQ) (hp : p ≠ []) (hq : q ≠ []) :
    (polyMulRaw p q).getLast?
      = some (p.getD (p.length - 1) 0 * q.getD (q.length - 1) 0) := by
  have hp1 : 1 ≤ p.length := List.length_pos.mpr hp
  have hq1 : 1 ≤ q.length := List.length_pos.mpr hq
  rw [polyMulRaw, if_neg (by simp [hp, hq])]
  rw [List.getLast?_eq_getElem?]
  simp only [List.length_map, List.length_range]
  rw [List.getElem?_map]
  rw [List.getElem?_range (by omega)]
  simp only [Option.map_some']
  rw [show p.length + q.length - 1 - 1 = p.length + q.length - 2 by omega]
  rw [convEntry_last p q hp hq]

/-- Claim C6 (amended): `degree(p * q) = degree(p) + degree(q)` whenever
neither operand is the zero polynomial and the product of their leading
coefficients survives the sanitiser, i.e. has absolute value above the
`1e-10` threshold.  (Without the threshold condition the identity fails:
see the counterexample, where the leading product is flattened to zero.) -/
theorem polyMul_degree (p q : PolyQ) (a b : ℚ) (hp : p.getLast? = some a)
    (hq : q.getLast? = some b) (hbig : ¬ |a * b| ≤ 1 / 10 ^ 10) :
    degreeP (polyMul p q) = degreeP p + degreeP q := by
  have hpne : p ≠ [] := by intro h; rw [h] at hp; simp at hp
  have hqne : q ≠ [] := by intro h; rw [h] at hq; simp at hq
  have hp1 : 1 ≤ p.length := List.length_pos.mpr hpne
  have hq1 : 1 ≤ q.length := List.length_pos.mpr hqne
  have hpa : p.getD (p.length - 1) 0 = a := by
    rw [List.getD_eq_getElem?_getD, ← List.getLast?_eq_getElem?, hp]
    rfl
  have hqb : q.getD (q.length - 1) 0 = b := by
    rw [List.getD_eq_getElem?_getD, ← List.getLast?_eq_getElem?, hq]
    rfl
  have hlast : (polyMulRaw p q).getLast? = some (a * b) := by
    rw [polyMulRaw_getLast p q hpne hqne, hpa, hqb]
  have hlen : (polyMul p q).length = p.length + q.length - 1 := by
    rw [polyMul, sanitise_length_of_big_last _ _ hlast hbig, polyMulRaw,
      if_neg (by simp [hpne, hqne])]
    simp
  simp only [degreeP]
  rw [hlen]
  omega

/-! ### Evaluation of the Lagrange construction -/

theorem evalPoly_lagrangeFold (san : PolyQ → PolyQ)
    (hsan : ∀ l t, evalPoly (san l) t = evalPoly l t)
    (x : List ℚ) (j : ℕ) (t : ℚ) (ks : List ℕ) :
    ∀ acc : PolyQ,
      evalPoly (ks.foldl (lagrangeStep san x j) acc) t
        = evalPoly acc t *
          (ks.map (fun k =>
            if k = j then 1 else (t - x.getD k 0) / (x.getD j 0 - x.getD k 0))).prod := by
  induction ks with
  | nil => intro acc; simp
  | cons k ks ih =>
    intro acc
    rw [List.foldl_cons, ih, List.map_cons, List.prod_cons]
    rcases eq_or_ne k j with hkj | hkj
    · rw [lagrangeStep, if_pos hkj, if_pos hkj]
      ring
    · rw [lagrangeStep, if_neg hkj, if_neg hkj, hsan, evalPoly_polyDivRaw, hsan,
        evalPoly_polyMulRaw, hsan]
      have hfac : evalPoly [-(x.getD k 0), 1] t = t - x.getD k 0 := by
        show (0 * t + 1) * t + -(x.getD k 0) = t - x.getD k 0
        ring
      rw [hfac]
      have hdenom : -(x.getD k 0) + x.getD j 0 = x.getD j 0 - x.getD k 0 := by ring
      rw [hdenom]
      ring

theorem evalPoly_interpBody (san : PolyQ → PolyQ)
    (hsan : ∀ l t, evalPoly (san l) t = evalPoly l t)
    (x y : List ℚ) (m : ℕ) (t : ℚ) :
    evalPoly (interpBody san x y m) t
      = ((List.range m).map (fun j => y.getD j 0 *
          ((List.range m).map (fun k =>
            if k = j then 1 else (t - x.getD k 0) / (x.getD j 0 - x.getD k 0))).prod)).sum := by
  rw [interpBody]
  have hgen : ∀ (js : List ℕ) (acc : PolyQ),
      evalPoly (js.foldl
        (fun result j =>
          san (polyAddRaw result ((List.range m).foldl (lagrangeStep san x j)
            (san [y.getD j 0])))) acc) t
        = evalPoly acc t + (js.map (fun j => y.getD j 0 *
            ((List.range m).map (fun k =>
              if k = j then 1 else (t - x.getD k 0) / (x.getD j 0 - x.getD k 0))).prod)).sum := by
    intro js
    induction js with
    | nil => intro acc; simp
    | cons j js ih =>
      intro acc
      rw [List.foldl_cons, ih, List.map_cons, List.sum_cons, hsan, evalPoly_polyAddRaw,
        evalPoly_lagrangeFold san hsan, hsan]
      have hseed : evalPoly [y.getD j 0] t = y.getD j 0 := by
        show 0 * t + y.getD j 0 = y.getD j 0
        ring
      rw [hseed]
      ring
  rw [hgen]
  show (0 : ℚ) + _ = _
  rw [zero_add]

theorem nodup_getD_ne (x : List ℚ) (hx : x.Nodup) (i j : ℕ) (hi : i < x.length)
    (hj : j < x.length) (hij : i ≠ j) : x.getD i 0 ≠ x.getD j 0 := by
  intro h
  rw [List.getD_eq_getElem x 0 hi, List.getD_eq_getElem x 0 hj] at h
  exact hij (by simpa using (List.Nodup.getElem_inj_iff hx).mp h)

theorem lagrangeProd_eq (x : List ℚ) (m i j : ℕ) (hi : i < m) (hj : j < m)
    (hm : m ≤ x.length) (hx : x.Nodup) :
    ((List.range m).map (fun k =>
      if k = j then 1 else (x.getD i 0 - x.getD k 0) / (x.getD j 0 - x.getD k 0))).prod
      = if i = j then 1 else 0 := by
  rcases eq_or_ne i j with hij | hij
  · rw [if_pos hij]
    apply List.prod_eq_one
    intro z hz
    rcases List.mem_map.mp hz with ⟨k, hkmem, hk⟩
    rcases eq_or_ne k j with h | h
    · rw [← hk, if_pos h]
    · rw [← hk, if_neg h, hij]
      have hkm : k < m := List.mem_range.mp hkmem
      have hne : x.getD j 0 - x.getD k 0 ≠ 0 :=
        sub_ne_zero.mpr (nodup_getD_ne x hx j k (by omega) (by omega) (Ne.symm h))
      exact div_self hne
  · rw [if_neg hij]
    apply List.prod_eq_zero
    refine List.mem_map.mpr ⟨i, List.mem_range.mpr hi, ?_⟩
    rw [if_neg hij, sub_self, zero_div]

theorem interpolate_ok (x y : List ℚ) (p : PolyQ) (h : interpolate x y = .ok p) :
    2 ≤ x.length ∧ 2 ≤ y.length ∧ x.Nodup
      ∧ p = interpBody sanitise x y (min x.length y.length) := by
  rw [interpolate] at h
  split at h
  · exact absurd h (by simp)
  · split at h
    · exact absurd h (by simp)
    · rename_i h1 h2
      push_neg at h1 h2
      injection h with h
      exact ⟨h1.1, h1.2, h2, h.symm⟩

theorem interpBody_eval_at_node (x y : List ℚ) (m : ℕ) (hm : m ≤ x.length)
    (hx : x.Nodup) (i : ℕ) (hi : i < m) :
    evalPoly (interpBody trimZeros x y m) (x.getD i 0) = y.getD i 0 := by
  rw [evalPoly_interpBody trimZeros evalPoly_trimZeros, list_range_map_sum]
  rw [Finset.sum_congr rfl (fun j hj => by
    rw [lagrangeProd_eq x m i j hi (Finset.mem_range.mp hj) hm hx])]
  simp only [mul_ite, mul_one, mul_zero]
  rw [Finset.sum_ite_eq (Finset.range m) i (fun j => y.getD j 0)]
  rw [if_pos (Finset.mem_range.mpr hi)]

theorem getD_take (l : List ℚ) (m k : ℕ) (hk : k < m) :
    (l.take m).getD k 0 = l.getD k 0 := by
  rw [List.getD_eq_getElem?_getD, List.getD_eq_getElem?_getD, List.getElem?_take_of_lt hk]

theorem interpBody_congr (san : PolyQ → PolyQ) (x y x2 y2 : List ℚ) (m : ℕ)
    (hx : ∀ k < m, x.getD k 0 = x2.getD k 0) (hy : ∀ j < m, y.getD j 0 = y2.getD j 0) :
    interpBody san x y m = interpBody san x2 y2 m := by
  rw [interpBody, interpBody]
  apply List.foldl_ext
  intro acc j hj
  have hjm : j < m := List.mem_range.mp hj
  have hinner : (List.range m).foldl (lagrangeStep san x j) (san [y.getD j 0])
      = (List.range m).foldl (lagrangeStep san x2 j) (san [y2.getD j 0]) := by
    rw [hy j hjm]
    apply List.foldl_ext
    intro acc' k hk
    have hkm : k < m := List.mem_range.mp hk
    rw [lagrangeStep, lagrangeStep, hx k hkm, hx j hjm]
  rw [hinner]

/-- Invariant-carrying correctness of the convergent loop: starting from a
state describing the continued-fraction expansion of a reduced fraction with
denominator `D` exceeding the bound, the loop always terminates at the break
test (never at the zero-divisor guard, never by fuel exhaustion) and leaves
`q1 ≥ 1`. -/
theorem cfLoop_never_fails (maxd D : ℤ) (hmax : 1 ≤ maxd) (hD : maxd < D) :
    ∀ (fuel : ℕ) (n d p0 q0 p1 q1 : ℤ),
      d.natAbs ≤ fuel → 1 ≤ d → 0 ≤ n →
      (∃ u v, u * n + v * d = 1) →
      0 ≤ q0 → 0 ≤ q1 →
      (∃ s r, s * q1 + r * q0 = 1) →
      q1 * n + q0 * d = D →
      ∃ p0' q0' p1' q1',
        cfLoop maxd fuel n d p0 q0 p1 q1 = some (p0', q0', p1', q1') ∧ 1 ≤ q1' := by
  intro fuel
  induction fuel with
  | zero =>
    intro n d p0 q0 p1 q1 hfuel hd _ _ _ _ _ _
    exact absurd hfuel (by omega)
  | succ fuel ih =>
    intro n d p0 q0 p1 q1 hfuel hd hn hco hq0 hq1 hqco hlin
    rw [cfLoop, if_neg (show ¬ d = 0 by omega)]
    have hae : Int.tdiv n d = n / d := Int.tdiv_eq_ediv hn (by omega)
    have ha0 : 0 ≤ Int.tdiv n d := by
      rw [hae]
      exact Int.ediv_nonneg hn (by omega)
    have hrem : n - Int.tdiv n d * d = n % d := by
      rw [hae, Int.emod_def]
      ring
    have hr0 : 0 ≤ n % d := Int.emod_nonneg n (by omega)
    have hrlt : n % d < d := Int.emod_lt_of_pos n (by omega)
    by_cases hbreak : maxd < q0 + Int.tdiv n d * q1
    · rw [if_pos hbreak]
      refine ⟨p0, q0, p1, q1, rfl, ?_⟩
      rcases eq_or_lt_of_le hq1 with h0 | h1
      · exfalso
        obtain ⟨s, r, hsr⟩ := hqco
        rw [← h0] at hsr
        have hq0ne : q0 ≠ 0 := by
          intro h
          rw [h] at hsr
          simp at hsr
        have hq0dvd : q0 ∣ 1 := ⟨r, by linarith⟩
        have hq0le : q0 ≤ 1 := Int.le_of_dvd one_pos hq0dvd
        have hq0eq : q0 = 1 := by omega
        rw [hq0eq, ← h0, mul_zero, add_zero] at hbreak
        omega
      · omega
    · rw [if_neg hbreak]
      have hd1 : 1 ≤ n - Int.tdiv n d * d := by
        rw [hrem]
        rcases eq_or_lt_of_le hr0 with h0 | hpos
        · exfalso
          have hdvd : d ∣ n := Int.dvd_of_emod_eq_zero h0.symm
          obtain ⟨u, v, huv⟩ := hco
          obtain ⟨c, hc⟩ := hdvd
          have hddvd1 : d ∣ 1 := ⟨u * c + v, by rw [hc] at huv; linarith⟩
          have hdle : d ≤ 1 := Int.le_of_dvd one_pos hddvd1
          have hdeq : d = 1 := by omega
          have han : Int.tdiv n d = n := by rw [hae, hdeq, Int.ediv_one]
          apply hbreak
          calc maxd < D := hD
            _ = q1 * n + q0 * d := hlin.symm
            _ = q0 + Int.tdiv n d * q1 := by rw [han, hdeq]; ring
        · omega
      apply ih
      · omega
      · exact hd1
      · omega
      · obtain ⟨u, v, huv⟩ := hco
        exact ⟨v + u * Int.tdiv n d, u, by linear_combination huv⟩
      · exact hq1
      · positivity
      · obtain ⟨s, r, hsr⟩ := hqco
        exact ⟨r, s - r * Int.tdiv n d, by linear_combination hsr⟩
      · linear_combination hlin

theorem ratTrunc_nonneg (q : ℚ) (hq : 0 ≤ q) : 0 ≤ ratTrunc q :=
  Int.tdiv_nonneg (Rat.num_nonneg.mpr hq) (Int.natCast_nonneg _)

/-- Claim C9: for every (finite) real input and every maximum-denominator
bound at least 1 — including the degenerate bound 1 — `rationalise` is
well-defined and never divides by a zero denominator: the model returns
`none` exactly when the quotient `a = n / d` would be taken with `d = 0`,
when the semiconvergent step `k = (max_denominator - q0) / q1` would be
taken with `q1 = 0`, or when the loop fuel runs out, and this theorem shows
a `some` result is always produced. -/
theorem rationalise_well_defined (number : ℚ) (maxd : ℤ) (hmax : 1 ≤ maxd) :
    ∃ s, rationalise number maxd = some s := by
  rw [rationalise]
  by_cases hint : ((ratTrunc number : ℤ) : ℚ) = number
  · exact ⟨_, by rw [if_pos hint]⟩
  · rw [if_neg hint]
    set sign := if number < 0 then "-" else "" with hsign
    set n0 : ℤ := ratTrunc (|number| * ((10 ^ 12 : ℤ) : ℚ)) with hn0def
    set g : ℤ := (Int.gcd n0 (10 ^ 12) : ℤ) with hgdef
    set n1 := Int.tdiv n0 g with hn1def
    set d1 := Int.tdiv (10 ^ 12) g with hd1def
    have hn0 : 0 ≤ n0 := ratTrunc_nonneg _ (by positivity)
    have hgpos : 0 < Int.gcd n0 (10 ^ 12 : ℤ) := Int.gcd_pos_iff.mpr (Or.inr (by norm_num))
    have hg0 : 0 < g := by
      rw [hgdef]
      exact_mod_cast hgpos
    have hn1e : n1 = n0 / g := Int.tdiv_eq_ediv hn0 (le_of_lt hg0)
    have hd1e : d1 = (10 ^ 12 : ℤ) / g := Int.tdiv_eq_ediv (by norm_num) (le_of_lt hg0)
    have hn1 : 0 ≤ n1 := by
      rw [hn1e]
      exact Int.ediv_nonneg hn0 (le_of_lt hg0)
    by_cases hsmall : d1 ≤ maxd
    · exact ⟨_, by rw [if_pos hsmall]⟩
    · rw [if_neg hsmall]
      have hcop : Int.gcd n1 d1 = 1 := by
        rw [hn1e, hd1e, hgdef]
        exact Int.gcd_div_gcd_div_gcd (by exact_mod_cast hgpos)
      have hbez : ∃ u v, u * n1 + v * d1 = 1 := by
        obtain ⟨u, v, huv⟩ := Int.gcd_eq_one_iff_coprime.mp hcop
        exact ⟨u, v, huv⟩
      obtain ⟨p0', q0', p1', q1', hloop, hq1'⟩ :=
        cfLoop_never_fails maxd d1 hmax (by omega) d1.natAbs n1 d1 0 1 1 0
          (le_refl _) (by omega) hn1 hbez (by norm_num) (by norm_num)
          ⟨0, 1, by ring⟩ (by ring)
      simp only [hloop]
      rw [if_neg (show ¬ q1' = 0 by omega)]
      split
      · exact ⟨_, rfl⟩
      · exact ⟨_, rfl⟩

/-! ### Commutativity of the convolution -/

theorem polyMulRaw_comm (p q : PolyQ) : polyMulRaw p q = polyMulRaw q p := by
  by_cases h : p.isEmpty ∨ q.isEmpty
  · rw [polyMulRaw, polyMulRaw, if_pos h, if_pos (Or.symm h)]
  · rw [polyMulRaw, polyMulRaw, if_neg h, if_neg (fun hc => h (Or.symm hc))]
    rw [show q.length + p.length - 1 = p.length + q.length - 1 by omega]
    apply List.map_congr_left
    intro n _
    rw [convEntry_eq_sum, convEntry_eq_sum]
    rw [← Finset.sum_range_reflect (fun k => q.getD k 0 * p.getD (n - k) 0) (n + 1)]
    apply Finset.sum_congr rfl
    intro k hk
    have hk' : k ≤ n := by
      have := Finset.mem_range.mp hk
      omega
    rw [show n + 1 - 1 - k = n - k by omega, Nat.sub_sub_self hk']
    ring

/-- Claim C10: polynomial multiplication is commutative on coefficient
vectors (display names are cosmetic and are not modelled): `p * q` and
`q * p` produce the same coefficient vector.  In this exact-arithmetic
model the two convolution accumulations sum the same products. -/
theorem polyMul_comm (p q : PolyQ) : polyMul p q = polyMul q p := by
  rw [polyMul, polyMul, polyMulRaw_comm]

/-! ### The convolution as the spec words it, and remaining support lemmas -/

theorem convEntry_eq_guarded_sum (p q : PolyQ) (n : ℕ) :
    convEntry p q n = ∑ k ∈ Finset.range (n + 1),
      if k < p.length ∧ n - k < q.length then p.getD k 0 * q.getD (n - k) 0 else 0 := by
  unfold convEntry
  have h1 : (fun (acc : ℚ) (k : ℕ) =>
      if k < p.length ∧ n - k < q.length then acc + p.getD k 0 * q.getD (n - k) 0 else acc)
      = (fun acc k => acc +
          (if k < p.length ∧ n - k < q.length then p.getD k 0 * q.getD (n - k) 0 else 0)) := by
    funext acc k
    split <;> simp
  rw [h1, foldl_add_eq, list_range_map_sum, zero_add]

theorem interpBody_canonical (x y : List ℚ) (m : ℕ) (hm : 1 ≤ m) :
    canonicalForm (interpBody sanitise x y m) := by
  rw [interpBody]
  obtain ⟨m', rfl⟩ : ∃ m', m = m' + 1 := ⟨m - 1, by omega⟩
  rw [List.range_succ, List.foldl_append, List.foldl_cons, List.foldl_nil]
  exact sanitise_canonical _

/-! ### The duplicate scan -/

theorem findDuplicate_none (l : List ℚ) :
    ∀ seen, findDuplicate seen l = none → l.Nodup ∧ ∀ a ∈ l, a ∉ seen := by
  induction l with
  | nil =>
    intro seen _
    exact ⟨List.nodup_nil, by simp⟩
  | cons v rest ih =>
    intro seen h
    rw [findDuplicate] at h
    by_cases hv : v ∈ seen
    · rw [if_pos hv] at h
      exact absurd h (by simp)
    · rw [if_neg hv] at h
      obtain ⟨hnd, hmem⟩ := ih _ h
      refine ⟨List.nodup_cons.mpr ⟨?_, hnd⟩, ?_⟩
      · intro hvin
        exact (hmem v hvin) (List.mem_cons_self v seen)
      · intro a ha
        rcases List.mem_cons.mp ha with rfl | ha'
        · exact hv
        · intro hain
          exact (hmem a ha') (List.mem_cons_of_mem _ hain)

theorem findDuplicate_some_count (l : List ℚ) :
    ∀ seen v, findDuplicate seen l = some v → 2 ≤ seen.count v + l.count v := by
  induction l with
  | nil =>
    intro seen v h
    exact absurd h (by simp [findDuplicate])
  | cons w rest ih =>
    intro seen v h
    rw [findDuplicate] at h
    by_cases hw : w ∈ seen
    · rw [if_pos hw] at h
      injection h with h
      subst h
      have h1 : 1 ≤ seen.count w := List.count_pos_iff.mpr hw
      rw [List.count_cons_self]
      omega
    · rw [if_neg hw] at h
      have hrec := ih _ _ h
      by_cases hvw : v = w
      · subst hvw
        rw [List.count_cons_self] at hrec
        rw [List.count_cons_self]
        omega
      · rw [List.count_cons_of_ne hvw] at hrec
        rw [List.count_cons_of_ne hvw]
        omega

/-! ### Claims -/

/-- Claim C1, counterexample: for the two points `(0, 1)` and `(1e-10, 0)`
(distinct x-coordinates, n = 2), `interpolate` succeeds, but its result
evaluated at `x_0 = 0` is `0`, a full unit away from `y_0 = 1` — far beyond
any small tolerance such as the spec's example `1e-6`.  The basis polynomial
`{-1e-10, 1}` has its constant coefficient flattened to zero by `sanitise`
before the division by `-1e-10` amplifies the loss. -/
theorem interpolate_roundtrip_cex :
    interpolate [0, 1 / 10 ^ 10] [1, 0] = .ok [0, -(10 ^ 10 : ℚ)]
      ∧ 1 / 10 ^ 6 < |evalPoly [0, -(10 ^ 10 : ℚ)] 0 - 1| := by
  constructor
  · decide
  · decide

/-- Claim C1 (amended): for any accepted input (at least two points in each
sequence, pairwise-distinct x-coordinates) on which the `1e-10` near-zero
flattening does not alter the computation — that is, the returned polynomial
coincides with the one computed with plain trailing-zero trimming — the
returned polynomial evaluates exactly to `y_i` at each used node `x_i`. -/
theorem interpolate_roundtrip_exact (x y : List ℚ) (p : PolyQ)
    (hok : interpolate x y = .ok p)
    (hideal : p = interpBody trimZeros x y (min x.length y.length))
    (i : ℕ) (hi : i < min x.length y.length) :
    evalPoly p (x.getD i 0) = y.getD i 0 := by
  obtain ⟨_, _, hnodup, _⟩ := interpolate_ok x y p hok
  rw [hideal]
  exact interpBody_eval_at_node x y _ (min_le_left _ _) hnodup i hi

/-- Claim C1, witness: the two points `(0, 1)` and `(1, 2)` interpolate to
`x + 1`, the flattening never fires, and evaluation reproduces both
ordinates. -/
theorem interpolate_roundtrip_exact_witness :
    evalPoly [1, 1] 0 = 1 ∧ evalPoly [1, 1] 1 = 2 :=
  ⟨interpolate_roundtrip_exact [0, 1] [1, 2] [1, 1] (by decide) (by decide) 0 (by decide),
   interpolate_roundtrip_exact [0, 1] [1, 2] [1, 1] (by decide) (by decide) 1 (by decide)⟩

/-- Claim C2: dividing the polynomial `{1}` by the scalar `0` does not fail;
`operator/=` (src/lib/main.cc lines 331-338) performs the IEEE division of
every coefficient by zero and returns the polynomial `{+inf}` — there is no
`DivisionByZero` condition anywhere in the source. -/
theorem polyDivDD_zero : polyDivDD [DD.fin 1] (DD.fin 0) = [DD.inf] := by decide

/-- Claim C3, counterexample: the input `x = [1, 1]`, `y = []` has two equal
x-coordinates, yet the constructor fails with the insufficient-points
condition (the size check runs first), not with `DuplicateAbscissa`. -/
theorem polyFromPoints_dup_cex :
    polyFromPoints [1, 1] [] = .error .insufficientPoints
      ∧ isDupErr (polyFromPoints [1, 1] []) = false := by
  constructor
  · decide
  · decide

/-- Claim C3 (amended): for every input with at least two usable points
(both sequences of length at least 2 after taking the minimum) whose
x-coordinate sequence contains two equal values, the constructor fails with
a `DuplicateAbscissa` condition naming an offending value — a value that
occurs at least twice in the x-sequence — rather than silently picking one
of the conflicting points.  (When fewer than two points are usable, the
insufficient-points condition wins instead.) -/
theorem polyFromPoints_duplicate (x y : List ℚ)
    (hlen : 2 ≤ min x.length y.length) (hdup : ¬ x.Nodup) :
    ∃ v, polyFromPoints x y = .error (.duplicateAbscissa v) ∧ 2 ≤ x.count v := by
  rw [polyFromPoints, if_neg (by omega)]
  cases hfd : findDuplicate [] x with
  | none => exact absurd (findDuplicate_none x [] hfd).1 hdup
  | some v =>
    refine ⟨v, rfl, ?_⟩
    have := findDuplicate_some_count x [] v hfd
    simpa using this

/-- Claim C3, witness: `x = [1, 2, 1]`, `y = [5, 6, 7]` fails naming the
duplicated abscissa 1. -/
theorem polyFromPoints_duplicate_witness :
    2 ≤ min (List.length [(1 : ℚ), 2, 1]) (List.length [(5 : ℚ), 6, 7])
      ∧ ∃ v, polyFromPoints [1, 2, 1] [5, 6, 7] = .error (.duplicateAbscissa v)
          ∧ 2 ≤ List.count v [1, 2, 1] :=
  ⟨by decide, polyFromPoints_duplicate [1, 2, 1] [5, 6, 7] (by decide) (by decide)⟩

/-- Claim C4: `operator*` is the discrete linear convolution.  When both
operands are non-empty, the pre-sanitise result (`polyMulRaw`) equals the
convolution as the spec words it (`convolutionSpec`) and has length
`len(p) + len(q) - 1`; when either operand (including both) is the zero
polynomial, the returned product is the zero polynomial — the empty vector,
not a vector of zeros and not a failure (the model is a total function). -/
theorem polyMul_is_convolution (p q : PolyQ) :
    (p ≠ [] → q ≠ [] →
      polyMulRaw p q = convolutionSpec p q
        ∧ (polyMulRaw p q).length = p.length + q.length - 1)
      ∧ ((p = [] ∨ q = []) → polyMul p q = []) := by
  constructor
  · intro hp hq
    have hne : ¬ (p.isEmpty ∨ q.isEmpty) := by simp [hp, hq]
    constructor
    · rw [polyMulRaw, if_neg hne, convolutionSpec]
      apply List.map_congr_left
      intro n _
      exact convEntry_eq_guarded_sum p q n
    · rw [polyMulRaw, if_neg hne]
      simp
  · intro hpq
    have : p.isEmpty ∨ q.isEmpty := by
      rcases hpq with h | h
      · exact Or.inl (by simp [h])
      · exact Or.inr (by simp [h])
    rw [polyMul, polyMulRaw, if_pos this]
    decide

/-- Claim C4, witness: the pre-sanitise product of `{1, 2}` and `{0, 1}`
equals the spec's convolution, and multiplying the zero polynomial gives
the zero polynomial. -/
theorem polyMul_is_convolution_witness :
    polyMulRaw [1, 2] [0, 1] = convolutionSpec [1, 2] [0, 1] ∧ polyMul [] [1, 2] = [] :=
  ⟨((polyMul_is_convolution [1, 2] [0, 1]).1 (by decide) (by decide)).1,
   (polyMul_is_convolution [] [1, 2]).2 (Or.inl rfl)⟩

/-- Claim C5, counterexample: the polynomial built by the constructor from
`{1, 1e-17, 1}` is `{1, 0, 1}`, which contains the element `0` of absolute
value at most `1e-10` — the claim that canonical polynomials contain no
element of absolute value at most `1e-10` fails on interior (exact) zeros. -/
theorem canonical_cex :
    sanitise [1, 1 / 10 ^ 17, 1] = [1, 0, 1]
      ∧ (0 : ℚ) ∈ sanitise [1, 1 / 10 ^ 17, 1]
      ∧ |(0 : ℚ)| ≤ 1 / 10 ^ 10 := by
  refine ⟨by decide, by decide, by norm_num⟩

theorem polyFromPoints_ok (x y : List ℚ) (p : PolyQ) (h : polyFromPoints x y = .ok p) :
    p = sanitise (interpBodyCc sanitise x y (min x.length y.length)) := by
  rw [polyFromPoints] at h
  split at h
  · exact absurd h (by simp)
  · split at h
    · exact absurd h (by simp)
    · injection h with h
      exact h.symm

/-- Claim C5 (amended): every polynomial observable by a caller — produced
by a constructor, by add, subtract, multiply, scalar multiply, scalar
divide, or by interpolation — is in canonical form: its coefficient vector
does not end in a zero (so it is empty or ends in a nonzero element), and
every element of absolute value at most `1e-10` is exactly `0`.  (Interior
exact zeros do remain, so the vector may contain elements of absolute value
at most `1e-10`, but only the value `0` itself.) -/
theorem canonical_invariant :
    (∀ l, canonicalForm (sanitise l))
      ∧ (∀ p q, canonicalForm (polyAdd p q) ∧ canonicalForm (polySub p q)
          ∧ canonicalForm (polyMul p q))
      ∧ (∀ p c, canonicalForm (polyScale p c) ∧ canonicalForm (polyDiv p c))
      ∧ (∀ x y p, interpolate x y = .ok p → canonicalForm p)
      ∧ (∀ x y p, polyFromPoints x y = .ok p → canonicalForm p) := by
  refine ⟨fun l => sanitise_canonical l,
    fun p q => ⟨sanitise_canonical _, sanitise_canonical _, sanitise_canonical _⟩,
    fun p c => ⟨sanitise_canonical _, sanitise_canonical _⟩, ?_, ?_⟩
  · intro x y p h
    obtain ⟨hx2, hy2, _, hbody⟩ := interpolate_ok x y p h
    rw [hbody]
    exact interpBody_canonical x y _ (by omega)
  · intro x y p h
    rw [polyFromPoints_ok x y p h]
    exact sanitise_canonical _

/-- Claim C5, witness: the polynomial returned by `interpolate` on the
points `(0, 1)` and `(1, 2)` is in canonical form. -/
theorem canonical_invariant_witness : canonicalForm [1, 1] :=
  canonical_invariant.2.2.2.1 [0, 1] [1, 2] [1, 1] (by decide)

/-- Claim C6, counterexample: `p = q = {1e-6}` are canonical, nonzero,
degree-0 polynomials, but their product's only coefficient `1e-12` is
flattened by `sanitise`, so `degree(p * q) = -1` while
`degree(p) + degree(q) = 0`. -/
theorem polyMul_degree_cex :
    sanitise [1 / 10 ^ 6] = [1 / 10 ^ 6]
      ∧ [1 / 10 ^ 6] ≠ ([] : PolyQ)
      ∧ degreeP (polyMul [1 / 10 ^ 6] [1 / 10 ^ 6]) = -1
      ∧ degreeP [1 / 10 ^ 6] + degreeP [1 / 10 ^ 6] = 0 := by
  refine ⟨by decide, by decide, by decide, by decide⟩

/-- Claim C6, witness: `{0, 1} * {2}` has degree `1 = 1 + 0`. -/
theorem polyMul_degree_witness :
    degreeP (polyMul [0, 1] [2]) = degreeP [0, 1] + degreeP [2] :=
  polyMul_degree [0, 1] [2] 1 2 (by decide) (by decide) (by norm_num)

/-- Claim C7, counterexample: the inputs `x = [1, 2, 3, 3], y = [5, 6]` and
`x' = [1, 2, 4, 5], y' = [5, 6]` have the same overlapping prefixes
(`min` length 2, prefixes `[1, 2]` and `[5, 6]`), yet the outcomes differ:
the first fails (the duplicate scan inspects all of `x`, beyond the
prefix), the second succeeds.  The outcome therefore does not depend only
on the first `min(len(x), len(y))` entries. -/
theorem interpolate_overlap_cex :
    interpolate [1, 2, 3, 3] [5, 6] = .error .duplicateAbscissa
      ∧ interpolate [1, 2, 4, 5] [5, 6] = .ok [4, 1]
      ∧ min (List.length [(1 : ℚ), 2, 3, 3]) (List.length [(5 : ℚ), 6])
          = min (List.length [(1 : ℚ), 2, 4, 5]) (List.length [(5 : ℚ), 6])
      ∧ List.take 2 [(1 : ℚ), 2, 3, 3] = List.take 2 [(1 : ℚ), 2, 4, 5] := by
  refine ⟨by decide, by decide, by decide, by decide⟩

/-- Claim C7 (amended): in the success case interpolation uses only the
overlapping prefix: whenever two accepted inputs have the same `min` of the
two lengths and agree on the first `min` entries of each sequence, the
returned polynomials are equal.  (Which error is raised, however, may
depend on x-coordinates beyond the prefix, because the duplicate scan
inspects the whole x-sequence — see the counterexample.) -/
theorem interpolate_overlap (x y x2 y2 : List ℚ) (p p2 : PolyQ)
    (h1 : interpolate x y = .ok p) (h2 : interpolate x2 y2 = .ok p2)
    (hm : min x.length y.length = min x2.length y2.length)
    (hx : x.take (min x.length y.length) = x2.take (min x2.length y2.length))
    (hy : y.take (min x.length y.length) = y2.take (min x2.length y2.length)) :
    p = p2 := by
  obtain ⟨_, _, _, hb1⟩ := interpolate_ok x y p h1
  obtain ⟨_, _, _, hb2⟩ := interpolate_ok x2 y2 p2 h2
  rw [hb1, hb2, ← hm]
  apply interpBody_congr
  · intro k hk
    rw [← getD_take x _ k hk, hx, getD_take x2 _ k (hm ▸ hk)]
  · intro j hj
    rw [← getD_take y _ j hj, hy, getD_take y2 _ j (hm ▸ hj)]

/-- Claim C7, witness: `x = [1, 2, 9], y = [5, 6]` and `x' = [1, 2],
y' = [5, 6, 7]` agree on their overlapping prefixes and both interpolate to
`x + 4`. -/
theorem interpolate_overlap_witness :
    interpolate [1, 2, 9] [5, 6] = .ok [4, 1] ∧ ([4, 1] : PolyQ) = [4, 1] :=
  ⟨by decide,
   interpolate_overlap [1, 2, 9] [5, 6] [1, 2] [5, 6, 7] [4, 1] [4, 1]
     (by decide) (by decide) (by decide) (by decide) (by decide)⟩

/-- Claim C8: results whose winning approximation has denominator 1 are
rendered as plain integers with no `/1` suffix, in every branch: the
integer fast path (`rationalise(3.0, 1000) = "3"`), the early
large-denominator reduction when it reduces to denominator 1
(`rationalise(3 + 1e-13, 1000) = "3"`), and the convergent selection under
the degenerate bound 1 (`rationalise(1/3, 1) = "0"`); a fraction keeps its
slash (`rationalise(0.5, 1000) = "1/2"`).  The shared rendering tail
`render` omits the suffix exactly when the chosen denominator is 1. -/
theorem rationalise_denominator_one :
    rationalise 3 1000 = some "3"
      ∧ rationalise (1 / 2) 1000 = some "1/2"
      ∧ rationalise (3 + 1 / 10 ^ 13) 1000 = some "3"
      ∧ rationalise (1 / 3) 1 = some "0"
      ∧ ∀ (sign : String) (n : ℤ), render sign n 1 = sign ++ toString n := by
  refine ⟨by decide, by decide, by decide, by decide, ?_⟩
  intro sign n
  rw [render, if_neg (by simp)]

/-- Claim C9, witness: `rationalise` on an arbitrary non-integer input with
the degenerate bound 1 produces a result. -/
theorem rationalise_well_defined_witness :
    (1 : ℤ) ≤ 1 ∧ ∃ s, rationalise (314159 / 100000) 1 = some s :=
  ⟨le_refl 1, rationalise_well_defined (314159 / 100000) 1 (by norm_num)⟩
